import Mathlib

/-
  Verification of the core matching/classification pipeline of the
  IdealFunctionMapping repository (src/functions/functions.py).

  The three stages are embedded shallowly:
  * `mapTraining`   — `Functions.map_training_to_ideal_functions`
  * `createMapped`  — `Functions.create_mapped_dataframes`
  * `mapTestData`   — `Functions.map_test_data`

  DataFrames are lists of named rational columns; numpy/pandas operations
  that can raise Python exceptions are modelled in an `Except PyErr` monad.
-/

namespace IdealFn

/-- Python exception outcomes that functions.py can produce. -/
inductive PyErr where
  | keyError : String → PyErr
  | valueError : String → PyErr
  | nameError : String → PyErr
  | indexError : PyErr
deriving DecidableEq, Repr

instance {ε α : Type} [DecidableEq ε] [DecidableEq α] : DecidableEq (Except ε α) := fun x y =>
  match x, y with
  | .ok a, .ok b =>
    if h : a = b then isTrue (by rw [h]) else isFalse (fun hh => h (Except.ok.inj hh))
  | .ok _, .error _ => isFalse (fun hh => Except.noConfusion hh)
  | .error _, .ok _ => isFalse (fun hh => Except.noConfusion hh)
  | .error e, .error f =>
    if h : e = f then isTrue (by rw [h]) else isFalse (fun hh => h (Except.error.inj hh))

/-- A raw pandas DataFrame: named columns of float64 values (modelled as ℚ),
in column order. -/
abbrev RawDF := List (String × List ℚ)

/-- The list of column names of a data frame, in order. -/
def colNames (df : RawDF) : List String := df.map Prod.fst

/-- `df[name]`: the first column carrying `name`, if any. -/
def colOf (df : RawDF) (name : String) : Option (List ℚ) :=
  match df with
  | [] => none
  | (n, vs) :: rest => if n = name then some vs else colOf rest name

/-- `df.set_index('x')`: removes the `x` column (the subsequent code only
reads positional `.values`, so the index itself is irrelevant); raises
`KeyError` when no `x` column exists. -/
def setIndex (df : RawDF) : Except PyErr RawDF :=
  if "x" ∈ colNames df then .ok (df.filter (fun c => c.1 ≠ "x"))
  else .error (.keyError "x")

/-- numpy array subtraction `a - b`, including broadcasting of a
length-1 array against the other operand; raises `ValueError` for any
other length mismatch. -/
def npSub (a b : List ℚ) : Except PyErr (List ℚ) :=
  if a.length = b.length then .ok (List.zipWith (fun u v => u - v) a b)
  else if b.length = 1 then .ok (a.map (fun u => u - b.headI))
  else if a.length = 1 then .ok (b.map (fun v => a.headI - v))
  else .error (.valueError "Mismatch in array shapes. Ensure training_data and ideal_functions have the same length.")

/-- `(arr ** 2).sum()` for a numpy array. -/
def sqSum (l : List ℚ) : ℚ := (l.map (fun q => q ^ 2)).sum

/-- Sum of squared differences of two aligned series. -/
def sse (a b : List ℚ) : ℚ := sqSum (List.zipWith (fun u v => u - v) a b)

/-- Inner loop of `map_training_to_ideal_functions`: scan the candidate
columns, keeping the first one with strictly smaller squared deviation
(`best = none` models the initial `float("inf")`). -/
def selectBest (tv : List ℚ) :
    List (String × List ℚ) → Option (String × ℚ) → Except PyErr (Option (String × ℚ))
  | [], best => .ok best
  | (name, vs) :: rest, best =>
    match npSub tv vs with
    | .error e => .error e
    | .ok diffs =>
      let sd := sqSum diffs
      let best' := match best with
        | none => some (name, sd)
        | some (bn, bd) => if sd < bd then some (name, sd) else some (bn, bd)
      selectBest tv rest best'

/-- Pure core of `selectBest` when no shape error occurs: fold the
first-strictly-smaller update over the candidate columns. -/
def pickMin (tv : List ℚ) :
    List (String × List ℚ) → Option (String × ℚ) → Option (String × ℚ)
  | [], best => best
  | (name, vs) :: rest, best =>
    let sd := sse tv vs
    match best with
    | none => pickMin tv rest (some (name, sd))
    | some (bn, bd) => if sd < bd then pickMin tv rest (some (name, sd))
                       else pickMin tv rest (some (bn, bd))

/-- Outer loop of `map_training_to_ideal_functions`: one output row
`(training column, best fitting ideal column)` per training column. -/
def mapTrainingAux (alignedT alignedI : RawDF) :
    List String → Except PyErr (List (String × Option String))
  | [] => .ok []
  | c :: rest =>
    match colOf alignedT c with
    | none => .error (.keyError c)
    | some tv =>
      match selectBest tv alignedI none with
      | .error e => .error e
      | .ok best =>
        match mapTrainingAux alignedT alignedI rest with
        | .error e => .error e
        | .ok ms => .ok ((c, best.map Prod.fst) :: ms)

/-- `Functions.map_training_to_ideal_functions`.  A `KeyError` raised by
either `set_index('x')` call is re-raised as `raise KeyError(...) from err`
where the name `err` is undefined, so the surfaced exception is a
`NameError`. -/
def mapTraining (training ideal : RawDF) : Except PyErr (List (String × Option String)) :=
  match setIndex training with
  | .error _ => .error (.nameError "err")
  | .ok alignedT =>
    match setIndex ideal with
    | .error _ => .error (.nameError "err")
    | .ok alignedI =>
      mapTrainingAux alignedT alignedI ((colNames training).drop 1)

/-- One mapped dataframe of `create_mapped_dataframes`: columns `x`,
`y_ideal`, `y_train`, `y_diff`. -/
structure MappedFrame where
  x : List ℚ
  y_ideal : List ℚ
  y_train : List ℚ
  y_diff : List ℚ
deriving DecidableEq, Repr

/-- Body of the `create_mapped_dataframes` loop for one mapping row:
extracts `x` and the two y columns and derives `y_diff = y_ideal - y_train`. -/
def buildFrame (training ideal : RawDF) (tc f : String) : Except PyErr MappedFrame :=
  match colOf training "x" with
  | none => .error (.keyError "x")
  | some xs =>
    match colOf ideal f with
    | none => .error (.keyError f)
    | some yi =>
      match colOf training tc with
      | none => .error (.keyError tc)
      | some yt => .ok ⟨xs, yi, yt, List.zipWith (fun u v => u - v) yi yt⟩

/-- Python `dict` assignment `d[k] = v`: replaces the value of an existing
key in place, otherwise appends the new key at the end. -/
def insertOrReplace (m : List (String × MappedFrame)) (k : String) (v : MappedFrame) :
    List (String × MappedFrame) :=
  match m with
  | [] => [(k, v)]
  | (k0, v0) :: rest =>
    if k0 = k then (k, v) :: rest else (k0, v0) :: insertOrReplace rest k v

/-- Python `dict` lookup on the association-list model. -/
def lookupName (m : List (String × MappedFrame)) (k : String) : Option MappedFrame :=
  match m with
  | [] => none
  | (k0, v0) :: rest => if k0 = k then some v0 else lookupName rest k

/-- Loop of `create_mapped_dataframes` over the mapping rows, threading the
result dict.  A row whose `IdealFunction` is `None` or names a column absent
from `ideal_functions` is skipped (`continue`). -/
def createMappedAux (training ideal : RawDF) :
    List (String × Option String) → List (String × MappedFrame) →
    Except PyErr (List (String × MappedFrame))
  | [], acc => .ok acc
  | (tc, fOpt) :: rest, acc =>
    match fOpt with
    | none => createMappedAux training ideal rest acc
    | some f =>
      if f ∈ colNames ideal then
        match buildFrame training ideal tc f with
        | .error e => .error e
        | .ok fr => createMappedAux training ideal rest (insertOrReplace acc f fr)
      else createMappedAux training ideal rest acc

/-- `Functions.create_mapped_dataframes`. -/
def createMapped (ms : List (String × Option String)) (ideal training : RawDF) :
    Except PyErr (List (String × MappedFrame)) :=
  createMappedAux training ideal ms []

/-- pandas `Series.max()`: `None` models the `NaN` result on an empty
column (any comparison against it is false). -/
def pandasMax : List ℚ → Option ℚ
  | [] => none
  | a :: rest =>
    match pandasMax rest with
    | none => some a
    | some m => some (max a m)

/-- `dataframe["y_diff"].max()`: the training deviation the classifier
reads from a mapped dataframe. -/
def tauOf (F : MappedFrame) : Option ℚ := pandasMax F.y_diff

/-- `dataframe.loc[dataframe["x"] == x_value, "y_ideal"].values[0]` without
the final indexing: the `y_ideal` entry of the first row whose `x` equals
the queried value, if any. -/
def lookupX (F : MappedFrame) (x : ℚ) : Option ℚ :=
  (((F.x.zip F.y_ideal).filter (fun p => p.1 = x)).head?).map Prod.snd

/-- The revised deviation criterion `deviation_train >= deviation_test * np.sqrt(2)`. -/
def eligible (t d : ℚ) : Prop := (d : ℝ) * Real.sqrt 2 ≤ (t : ℝ)

instance eligible.instDecidable (t d : ℚ) : Decidable (eligible t d) :=
  decidable_of_iff
    ((0 ≤ d ∧ 0 ≤ t ∧ 2 * d ^ 2 ≤ t ^ 2) ∨ (d < 0 ∧ (0 ≤ t ∨ t ^ 2 ≤ 2 * d ^ 2)))
    (by
      unfold eligible
      have hs0 : (0 : ℝ) ≤ Real.sqrt 2 := Real.sqrt_nonneg 2
      have hs2 : Real.sqrt 2 ^ 2 = 2 := Real.sq_sqrt (by norm_num)
      have hkey : ∀ q : ℚ, ((q : ℝ) * Real.sqrt 2) ^ 2 = 2 * (q : ℝ) ^ 2 := by
        intro q; rw [mul_pow, hs2]; ring
      constructor
      · rintro (⟨hd, ht, h2⟩ | ⟨hd, hh⟩)
        · have hd' : (0 : ℝ) ≤ (d : ℝ) := by exact_mod_cast hd
          have ht' : (0 : ℝ) ≤ (t : ℝ) := by exact_mod_cast ht
          have h2' : 2 * (d : ℝ) ^ 2 ≤ (t : ℝ) ^ 2 := by exact_mod_cast h2
          have hsq : ((d : ℝ) * Real.sqrt 2) ^ 2 ≤ (t : ℝ) ^ 2 := by
            rw [hkey]; exact h2'
          exact le_of_pow_le_pow_left₀ two_ne_zero ht' hsq
        · have hd' : (d : ℝ) < 0 := by exact_mod_cast hd
          rcases hh with ht | h2
          · have ht' : (0 : ℝ) ≤ (t : ℝ) := by exact_mod_cast ht
            have h1 : (0 : ℝ) ≤ (-(d : ℝ)) * Real.sqrt 2 :=
              mul_nonneg (by linarith) hs0
            nlinarith
          · have h2' : (t : ℝ) ^ 2 ≤ 2 * (d : ℝ) ^ 2 := by exact_mod_cast h2
            rcases le_or_lt 0 (t : ℝ) with ht' | ht'
            · have h1 : (0 : ℝ) ≤ (-(d : ℝ)) * Real.sqrt 2 :=
                mul_nonneg (by linarith) hs0
              nlinarith
            · have hneg : (0 : ℝ) ≤ (-(d : ℝ)) * Real.sqrt 2 :=
                mul_nonneg (by linarith) hs0
              have hsq : (-(t : ℝ)) ^ 2 ≤ ((-(d : ℝ)) * Real.sqrt 2) ^ 2 := by
                have : ((-(d : ℝ)) * Real.sqrt 2) ^ 2 = 2 * (d : ℝ) ^ 2 := by
                  rw [mul_pow, hs2]; ring
                rw [this]
                calc (-(t : ℝ)) ^ 2 = (t : ℝ) ^ 2 := by ring
                  _ ≤ 2 * (d : ℝ) ^ 2 := h2'
              have := le_of_pow_le_pow_left₀ two_ne_zero hneg hsq
              nlinarith
      · intro h
        rcases le_or_lt 0 d with hd | hd
        · left
          have hd' : (0 : ℝ) ≤ (d : ℝ) := by exact_mod_cast hd
          have hds : (0 : ℝ) ≤ (d : ℝ) * Real.sqrt 2 := mul_nonneg hd' hs0
          have ht' : (0 : ℝ) ≤ (t : ℝ) := le_trans hds h
          have hsq : ((d : ℝ) * Real.sqrt 2) ^ 2 ≤ (t : ℝ) ^ 2 :=
            pow_le_pow_left₀ hds h 2
          rw [hkey] at hsq
          refine ⟨hd, by exact_mod_cast ht', by exact_mod_cast hsq⟩
        · right
          refine ⟨hd, ?_⟩
          rcases le_or_lt 0 t with ht | ht
          · exact Or.inl ht
          · right
            have hd' : (d : ℝ) < 0 := by exact_mod_cast hd
            have ht' : (t : ℝ) < 0 := by exact_mod_cast ht
            have h1 : (0 : ℝ) ≤ -(t : ℝ) := by linarith
            have h2 : -(t : ℝ) ≤ (-(d : ℝ)) * Real.sqrt 2 := by nlinarith
            have hsq : (-(t : ℝ)) ^ 2 ≤ ((-(d : ℝ)) * Real.sqrt 2) ^ 2 :=
              pow_le_pow_left₀ h1 h2 2
            have hfin : (t : ℝ) ^ 2 ≤ 2 * (d : ℝ) ^ 2 := by
              have hk : ((-(d : ℝ)) * Real.sqrt 2) ^ 2 = 2 * (d : ℝ) ^ 2 := by
                rw [mul_pow, hs2]; ring
              calc (t : ℝ) ^ 2 = (-(t : ℝ)) ^ 2 := by ring
                _ ≤ ((-(d : ℝ)) * Real.sqrt 2) ^ 2 := hsq
                _ = 2 * (d : ℝ) ^ 2 := hk
            exact_mod_cast hfin)

/-- The test deviation of a test point `(x, y)` against a mapped frame
whose domain contains `x` (`|y_value - candidate_y(x)|`). -/
def devAt (x y : ℚ) (F : MappedFrame) : ℚ := |y - (lookupX F x).getD 0|

/-- Whether the revised criterion accepts frame `F` for test point `(x, y)`
(false when `y_diff` is empty, i.e. the training deviation is `NaN`). -/
def eligAt (x y : ℚ) (F : MappedFrame) : Bool :=
  match tauOf F with
  | none => false
  | some t => decide (eligible t (devAt x y F))

/-- Loop of `map_test_data` over the profile dict for one test point.  The
accumulator is `(existing_max_deviation, best_fit_function, best_fit_deviation)`,
initialised to `(NaN, None, NaN)`; `Option` models the `NaN`/`None` states. -/
def classifyAux (x y : ℚ) :
    List (String × MappedFrame) → Option ℚ × Option String × Option ℚ →
    Except PyErr (Option String × Option ℚ)
  | [], (_, bf, bd) => .ok (bf, bd)
  | (name, F) :: rest, (ex, bf, bd) =>
    let devTrain := tauOf F
    match lookupX F x with
    | none => .error .indexError
    | some yi =>
      let d := |y - yi|
      let accept : Bool :=
        match devTrain with
        | none => false
        | some t => decide (eligible t d)
      if accept then
        let improve : Bool :=
          match ex with
          | none => true
          | some m => decide (m < d)
        if improve then classifyAux x y rest (some d, some name, devTrain)
        else classifyAux x y rest (ex, bf, bd)
      else classifyAux x y rest (ex, bf, bd)

/-- Classification of a single test point against the profile dict. -/
def classifyPoint (x y : ℚ) (profiles : List (String × MappedFrame)) :
    Except PyErr (Option String × Option ℚ) :=
  classifyAux x y profiles (none, none, none)

/-- `Functions.map_test_data`: one output row
`(x, y, Deviation, IdealFunction)` per test point, in input order. -/
def mapTestData (testData : List (ℚ × ℚ)) (profiles : List (String × MappedFrame)) :
    Except PyErr (List (ℚ × ℚ × Option ℚ × Option String)) :=
  match testData with
  | [] => .ok []
  | (x, y) :: rest =>
    match classifyPoint x y profiles with
    | .error e => .error e
    | .ok (bf, bd) =>
      match mapTestData rest profiles with
      | .error e => .error e
      | .ok rows => .ok ((x, y, bd, bf) :: rows)

/-- Modelled from the spec: `max_abs_residual`, the maximum over x of the
absolute value of the residual (spec 4.2); stated for comparison with the
training deviation the code actually reads (`tauOf`). -/
def specMaxAbsResidual (F : MappedFrame) : Option ℚ :=
  pandasMax (F.y_diff.map (fun q => |q|))

/-! ### Helper lemmas -/

theorem pandasMax_mem : ∀ (l : List ℚ) (t : ℚ), pandasMax l = some t → t ∈ l := by
  intro l
  induction l with
  | nil => intro t h; simp [pandasMax] at h
  | cons a rest ih =>
    intro t h
    unfold pandasMax at h
    cases hr : pandasMax rest with
    | none =>
      rw [hr] at h
      have ha : a = t := by injection h
      simp [ha]
    | some m =>
      rw [hr] at h
      have hm : max a m = t := by injection h
      rcases max_choice a m with hc | hc
      · rw [hc] at hm; simp [hm]
      · rw [hc] at hm
        rw [← hm]
        exact List.mem_cons_of_mem a (ih m hr)

theorem classifyAux_error_of_missing (x y : ℚ) :
    ∀ (ps : List (String × MappedFrame)) (ex : Option ℚ) (bf : Option String) (bd : Option ℚ),
      (∃ p ∈ ps, lookupX p.2 x = none) →
      classifyAux x y ps (ex, bf, bd) = .error .indexError := by
  intro ps
  induction ps with
  | nil => intro ex bf bd h; simp at h
  | cons a rest ih =>
    intro ex bf bd h
    obtain ⟨p, hp, hnone⟩ := h
    obtain ⟨name, F⟩ := a
    rcases List.mem_cons.mp hp with heq | hmem
    · rw [heq] at hnone
      simp only at hnone
      simp [classifyAux, hnone]
    · cases hlk : lookupX F x with
      | none => simp [classifyAux, hlk]
      | some yi =>
        have hex : ∃ q ∈ rest, lookupX q.2 x = none := ⟨p, hmem, hnone⟩
        simp only [classifyAux, hlk]
        split
        · split
          · exact ih _ _ _ hex
          · exact ih _ _ _ hex
        · exact ih _ _ _ hex

theorem mapTrainingAux_names (aT aI : RawDF) :
    ∀ (cols : List String) (m : List (String × Option String)),
      mapTrainingAux aT aI cols = .ok m → m.map Prod.fst = cols := by
  intro cols
  induction cols with
  | nil =>
    intro m h
    have : [] = m := by injection h
    simp [← this]
  | cons c rest ih =>
    intro m h
    unfold mapTrainingAux at h
    cases hc : colOf aT c with
    | none => simp [hc] at h
    | some tv =>
      simp only [hc] at h
      cases hs : selectBest tv aI none with
      | error e => simp [hs] at h
      | ok best =>
        simp only [hs] at h
        cases hr : mapTrainingAux aT aI rest with
        | error e => simp [hr] at h
        | ok ms =>
          simp only [hr] at h
          have hm : (c, best.map Prod.fst) :: ms = m := by injection h
          rw [← hm]
          simp [ih ms hr]

/-! ### Claim theorems -/

/-- C2 (counterexample): a test point whose x value (99) is absent from the
single profile's domain makes `map_test_data` raise an `IndexError` instead
of classifying the point as unassigned — the claimed skip-and-continue
behaviour does not exist in the code. -/
theorem C2_counterexample :
    mapTestData [((99 : ℚ), 1)] [("i1", (⟨[1], [0], [0], [0]⟩ : MappedFrame))] =
      .error .indexError := by with_unfolding_all decide

/-- C2 (amended): for a test point whose x is absent from some profile's
domain, the classifier raises `IndexError` (aborting the whole
`map_test_data` batch); a test point is classified as unassigned only when
the profile dictionary is empty. -/
theorem C2_missing_x_raises (x y : ℚ) (ps : List (String × MappedFrame))
    (ts : List (ℚ × ℚ)) :
    ((∃ p ∈ ps, lookupX p.2 x = none) →
      classifyPoint x y ps = .error .indexError ∧
      mapTestData ((x, y) :: ts) ps = .error .indexError) ∧
    classifyPoint x y [] = .ok (none, none) := by
  constructor
  · intro h
    have hc : classifyPoint x y ps = .error .indexError :=
      classifyAux_error_of_missing x y ps none none none h
    refine ⟨hc, ?_⟩
    simp [mapTestData, hc]
  · rfl

/-- C2 (witness): the amended behaviour at the concrete input of the
counterexample. -/
theorem C2_missing_x_raises_witness :
    classifyPoint 99 1 [("i1", (⟨[1], [0], [0], [0]⟩ : MappedFrame))] = .error .indexError ∧
    mapTestData [((99 : ℚ), 1)] [("i1", (⟨[1], [0], [0], [0]⟩ : MappedFrame))] =
      .error .indexError :=
  (C2_missing_x_raises 99 1 [("i1", (⟨[1], [0], [0], [0]⟩ : MappedFrame))] []).1
    (by with_unfolding_all decide)

/-- C6: whenever `map_training_to_ideal_functions` returns, it returns
exactly one mapping row per training column (the columns after the first),
in order, regardless of the candidate set. -/
theorem C6_one_mapping_per_training_series (T I : RawDF)
    (m : List (String × Option String)) (h : mapTraining T I = .ok m) :
    m.map Prod.fst = (colNames T).drop 1 ∧
    m.length = ((colNames T).drop 1).length := by
  unfold mapTraining at h
  cases hT : setIndex T with
  | error e => simp [hT] at h
  | ok aT =>
    simp only [hT] at h
    cases hI : setIndex I with
    | error e => simp [hI] at h
    | ok aI =>
      simp only [hI] at h
      have hnames := mapTrainingAux_names aT aI _ _ h
      refine ⟨hnames, ?_⟩
      rw [← hnames]
      simp

/-- C6 (witness): a two-column training table produces exactly its one
non-x column as mapping key. -/
theorem C6_one_mapping_per_training_series_witness :
    List.map Prod.fst [("y1", some "i1")] =
      (colNames [("x", [(1 : ℚ)]), ("y1", [2])]).drop 1 ∧
    ([("y1", (some "i1" : Option String))]).length =
      ((colNames [("x", [(1 : ℚ)]), ("y1", [2])]).drop 1).length :=
  C6_one_mapping_per_training_series [("x", [(1 : ℚ)]), ("y1", [2])]
    [("x", [(1 : ℚ)]), ("i1", [3])] [("y1", some "i1")]
    (by with_unfolding_all decide)

/-- C7: evaluating the selection stage at the failing input.  A candidate
series with a single point (fewer points than the two-point training
domain) does NOT raise the shape error: numpy broadcasts the length-1
array and the stage returns a mapping.  A candidate of any other
mismatched length does raise the `ValueError` shape error. -/
theorem C7_ragged_candidate_broadcast :
    mapTraining [("x", [(0 : ℚ), 1]), ("y1", [0, 1])] [("x", [(0 : ℚ)]), ("i1", [5])] =
      .ok [("y1", some "i1")] ∧
    mapTraining [("x", [(0 : ℚ), 1]), ("y1", [0, 1])]
        [("x", [(0 : ℚ), 1, 2]), ("i1", [5, 5, 5])] =
      .error (.valueError "Mismatch in array shapes. Ensure training_data and ideal_functions have the same length.") := by
  constructor
  · with_unfolding_all decide
  · with_unfolding_all decide

/-- C10: when the training table or the ideal-functions table lacks an `x`
column, `map_training_to_ideal_functions` surfaces a `NameError` (its
`raise ... from err` clause references the undefined name `err`), not the
`KeyError` the handler meant to raise. -/
theorem C10_missing_x_gives_NameError (T I : RawDF)
    (h : "x" ∉ colNames T ∨ "x" ∉ colNames I) :
    mapTraining T I = .error (.nameError "err") := by
  unfold mapTraining setIndex
  rcases h with h | h
  · simp [h]
  · by_cases hT : "x" ∈ colNames T
    · simp [hT, h]
    · simp [hT]

/-- C10 (witness): a training table with no `x` column. -/
theorem C10_missing_x_gives_NameError_witness :
    mapTraining [("a", ([] : List ℚ))] [] = .error (.nameError "err") :=
  C10_missing_x_gives_NameError [("a", ([] : List ℚ))] [] (Or.inl (by decide))

/-- C1 (counterexample): a fit whose residuals are all negative.  The
profile built for `y1 → i1` has `y_diff = [-3]`; the training deviation the
classifier reads is `-3` (the signed maximum), not the spec's
`max_abs_residual = 3`, and as a consequence the acceptance rule rejects
even a test point lying exactly on the candidate (deviation 0). -/
theorem C1_counterexample :
    createMapped [("y1", some "i1")] [("x", [(1 : ℚ)]), ("i1", [2])]
        [("x", [(1 : ℚ)]), ("y1", [5])] =
      .ok [("i1", (⟨[1], [2], [5], [-3]⟩ : MappedFrame))] ∧
    tauOf (⟨[1], [2], [5], [-3]⟩ : MappedFrame) = some (-3) ∧
    specMaxAbsResidual (⟨[1], [2], [5], [-3]⟩ : MappedFrame) = some 3 ∧
    tauOf (⟨[1], [2], [5], [-3]⟩ : MappedFrame) ≠
      specMaxAbsResidual (⟨[1], [2], [5], [-3]⟩ : MappedFrame) ∧
    classifyPoint 1 2 [("i1", (⟨[1], [2], [5], [-3]⟩ : MappedFrame))] = .ok (none, none) := by
  refine ⟨?_, ?_, ?_, ?_, ?_⟩ <;> with_unfolding_all decide

/-- C1 (amended): the training tolerance used by the classifier is the
SIGNED maximum of the residuals `candidate.y(x) - training.y(x)` (no
absolute value); when every residual is negative the tolerance is negative
and the acceptance rule then rejects every test point. -/
theorem C1_tau_is_signed_max (T I : RawDF) (tc f : String) (fr : MappedFrame)
    (h : buildFrame T I tc f = .ok fr) :
    tauOf fr = pandasMax (List.zipWith (fun u v => u - v) fr.y_ideal fr.y_train) ∧
    (∀ t, tauOf fr = some t → (∀ r ∈ fr.y_diff, r < 0) →
      t < 0 ∧ ∀ d : ℚ, 0 ≤ d → ¬ eligible t d) := by
  constructor
  · unfold buildFrame at h
    cases h1 : colOf T "x" with
    | none => simp [h1] at h
    | some xs =>
      simp only [h1] at h
      cases h2 : colOf I f with
      | none => simp [h2] at h
      | some yi =>
        simp only [h2] at h
        cases h3 : colOf T tc with
        | none => simp [h3] at h
        | some yt =>
          simp only [h3] at h
          have hfr : (⟨xs, yi, yt, List.zipWith (fun u v => u - v) yi yt⟩ : MappedFrame) = fr := by
            injection h
          rw [← hfr]
          rfl
  · intro t ht hneg
    unfold tauOf at ht
    have hmem := pandasMax_mem _ _ ht
    have hlt : t < 0 := hneg t hmem
    refine ⟨hlt, ?_⟩
    intro d hd helig
    have h1 : (0 : ℝ) ≤ (d : ℝ) * Real.sqrt 2 :=
      mul_nonneg (by exact_mod_cast hd) (Real.sqrt_nonneg 2)
    have h2 : ((t : ℚ) : ℝ) < 0 := by exact_mod_cast hlt
    unfold eligible at helig
    linarith

/-- C1 (witness): the amended statement at the all-negative-residual
profile of the counterexample. -/
theorem C1_tau_is_signed_max_witness :
    tauOf (⟨[1], [2], [5], [-3]⟩ : MappedFrame) =
      pandasMax (List.zipWith (fun u v => u - v) [2] [5]) ∧
    (-3 : ℚ) < 0 ∧ ¬ eligible (-3) 0 := by
  have H := C1_tau_is_signed_max [("x", [(1 : ℚ)]), ("y1", [5])]
    [("x", [(1 : ℚ)]), ("i1", [2])] "y1" "i1" (⟨[1], [2], [5], [-3]⟩ : MappedFrame)
    (by with_unfolding_all decide)
  have H2 := H.2 (-3) (by with_unfolding_all decide) (by with_unfolding_all decide)
  exact ⟨H.1, H2.1, H2.2 0 le_rfl⟩

/-- C3: the acceptance rule compares `deviation_train` against
`deviation_test * sqrt 2` with `≥` (so the exact boundary case is
eligible), and for a one-profile dictionary the point is assigned to the
profile exactly when the rule holds. -/
theorem C3_acceptance_rule_is_ge (t d : ℚ) :
    (eligible t d ↔ (d : ℝ) * Real.sqrt 2 ≤ (t : ℝ)) ∧
    ((t : ℝ) = (d : ℝ) * Real.sqrt 2 → eligible t d) ∧
    (∀ (name : String) (F : MappedFrame) (x y yi : ℚ),
      lookupX F x = some yi → tauOf F = some t → d = |y - yi| →
      (classifyPoint x y [(name, F)] = .ok (some name, some t) ↔ eligible t d)) := by
  refine ⟨Iff.rfl, ?_, ?_⟩
  · intro h
    unfold eligible
    exact le_of_eq h.symm
  · intro name F x y yi hlk htau hd
    subst hd
    constructor
    · intro h
      by_contra helig
      have hres : classifyPoint x y [(name, F)] = .ok (none, none) := by
        unfold classifyPoint
        simp [classifyAux, hlk, htau, helig]
      rw [hres] at h
      simp at h
    · intro helig
      unfold classifyPoint
      simp [classifyAux, hlk, htau, helig]

/-- C3 (witness): a boundary instance `tau = test_deviation * sqrt 2`
(both zero) where the profile is eligible and the point is assigned. -/
theorem C3_acceptance_rule_is_ge_witness :
    eligible 0 0 ∧
    classifyPoint 1 5 [("i1", (⟨[1], [5], [5], [0]⟩ : MappedFrame))] =
      .ok (some "i1", some 0) := by
  have H := C3_acceptance_rule_is_ge 0 0
  have hb : eligible 0 0 := H.2.1 (by norm_num)
  refine ⟨hb, ?_⟩
  exact (H.2.2 "i1" (⟨[1], [5], [5], [0]⟩ : MappedFrame) 1 5 5
    (by with_unfolding_all decide) (by with_unfolding_all decide) (by norm_num)).mpr hb

theorem devAt_eq (x y : ℚ) (F : MappedFrame) (yi : ℚ) (h : lookupX F x = some yi) :
    devAt x y F = |y - yi| := by
  unfold devAt
  rw [h]
  rfl

theorem classifyAux_max_spec (x y : ℚ) :
    ∀ (ps : List (String × MappedFrame)) (m : ℚ) (bn : String) (bt : Option ℚ),
      (∀ p ∈ ps, (lookupX p.2 x).isSome) →
      (classifyAux x y ps (some m, some bn, bt) = .ok (some bn, bt) ∧
        ∀ q ∈ ps, eligAt x y q.2 = true → devAt x y q.2 ≤ m) ∨
      (∃ l₁ p l₂, ps = l₁ ++ p :: l₂ ∧ eligAt x y p.2 = true ∧
        classifyAux x y ps (some m, some bn, bt) = .ok (some p.1, tauOf p.2) ∧
        m < devAt x y p.2 ∧
        (∀ q ∈ l₁, eligAt x y q.2 = true → devAt x y q.2 < devAt x y p.2) ∧
        (∀ q ∈ l₂, eligAt x y q.2 = true → devAt x y q.2 ≤ devAt x y p.2)) := by
  intro ps
  induction ps with
  | nil =>
    intro m bn bt h
    left
    exact ⟨rfl, by simp⟩
  | cons a rest ih =>
    intro m bn bt hlkall
    obtain ⟨name, F⟩ := a
    have hlkF : (lookupX F x).isSome := hlkall (name, F) (List.mem_cons_self _ _)
    obtain ⟨yi, hlk⟩ := Option.isSome_iff_exists.mp hlkF
    have hrest : ∀ p ∈ rest, (lookupX p.2 x).isSome :=
      fun p hp => hlkall p (List.mem_cons_of_mem _ hp)
    have hdev : devAt x y F = |y - yi| := devAt_eq x y F yi hlk
    cases heligF : eligAt x y F with
    | false =>
      have haccf : (match tauOf F with
          | none => false
          | some t => decide (eligible t |y - yi|)) = false := by
        have h0 : eligAt x y F = false := heligF
        unfold eligAt at h0
        rw [hdev] at h0
        exact h0
      have hstep : classifyAux x y ((name, F) :: rest) (some m, some bn, bt) =
          classifyAux x y rest (some m, some bn, bt) := by
        simp only [classifyAux, hlk]
        rw [haccf]
        simp
      rcases ih m bn bt hrest with ⟨heq, hall⟩ |
        ⟨l₁, p, l₂, hsplit, helig, heq, hm, h1, h2⟩
      · left
        refine ⟨by rw [hstep]; exact heq, ?_⟩
        intro q hq he
        rcases List.mem_cons.mp hq with rfl | hq'
        · have he' : eligAt x y F = true := he
          rw [heligF] at he'
          exact absurd he' (by simp)
        · exact hall q hq' he
      · right
        refine ⟨(name, F) :: l₁, p, l₂, by rw [hsplit, List.cons_append], helig,
          by rw [hstep]; exact heq, hm, ?_, h2⟩
        intro q hq he
        rcases List.mem_cons.mp hq with rfl | hq'
        · have he' : eligAt x y F = true := he
          rw [heligF] at he'
          exact absurd he' (by simp)
        · exact h1 q hq' he
    | true =>
      have htmp : eligAt x y F = true := heligF
      unfold eligAt at htmp
      rw [hdev] at htmp
      cases htau : tauOf F with
      | none => rw [htau] at htmp; simp at htmp
      | some t =>
        rw [htau] at htmp
        have heligt : eligible t |y - yi| := of_decide_eq_true htmp
        by_cases himp : m < |y - yi|
        · have hstep : classifyAux x y ((name, F) :: rest) (some m, some bn, bt) =
              classifyAux x y rest (some |y - yi|, some name, some t) := by
            simp only [classifyAux, hlk, htau]
            simp [heligt, himp]
          rcases ih (|y - yi|) name (some t) hrest with ⟨heq, hall⟩ |
            ⟨l₁, p, l₂, hsplit, helig, heq, hm, h1, h2⟩
          · right
            refine ⟨[], (name, F), rest, rfl, heligF, ?_, ?_, by simp, ?_⟩
            · rw [hstep, heq, htau]
            · rw [hdev]; exact himp
            · intro q hq he
              exact le_of_le_of_eq (hall q hq he) hdev.symm
          · right
            refine ⟨(name, F) :: l₁, p, l₂, by rw [hsplit, List.cons_append], helig,
              by rw [hstep]; exact heq, lt_trans himp hm, ?_, h2⟩
            intro q hq he
            rcases List.mem_cons.mp hq with rfl | hq'
            · exact lt_of_le_of_lt (le_of_eq hdev) hm
            · exact h1 q hq' he
        · have hstep : classifyAux x y ((name, F) :: rest) (some m, some bn, bt) =
              classifyAux x y rest (some m, some bn, bt) := by
            simp only [classifyAux, hlk, htau]
            simp [heligt, himp]
          rcases ih m bn bt hrest with ⟨heq, hall⟩ |
            ⟨l₁, p, l₂, hsplit, helig, heq, hm, h1, h2⟩
          · left
            refine ⟨by rw [hstep]; exact heq, ?_⟩
            intro q hq he
            rcases List.mem_cons.mp hq with rfl | hq'
            · exact le_of_eq_of_le hdev (not_lt.mp himp)
            · exact hall q hq' he
          · right
            refine ⟨(name, F) :: l₁, p, l₂, by rw [hsplit, List.cons_append], helig,
              by rw [hstep]; exact heq, hm, ?_, h2⟩
            intro q hq he
            rcases List.mem_cons.mp hq with rfl | hq'
            · exact lt_of_le_of_lt (le_of_eq_of_le hdev (not_lt.mp himp)) hm
            · exact h1 q hq' he

theorem classifyAux_none_spec (x y : ℚ) :
    ∀ (ps : List (String × MappedFrame)) (bf : Option String) (bd : Option ℚ),
      (∀ p ∈ ps, (lookupX p.2 x).isSome) →
      (∃ p ∈ ps, eligAt x y p.2 = true) →
      ∃ l₁ p l₂, ps = l₁ ++ p :: l₂ ∧ eligAt x y p.2 = true ∧
        classifyAux x y ps (none, bf, bd) = .ok (some p.1, tauOf p.2) ∧
        (∀ q ∈ l₁, eligAt x y q.2 = true → devAt x y q.2 < devAt x y p.2) ∧
        (∀ q ∈ l₂, eligAt x y q.2 = true → devAt x y q.2 ≤ devAt x y p.2) := by
  intro ps
  induction ps with
  | nil => intro bf bd h hex; simp at hex
  | cons a rest ih =>
    intro bf bd hlkall hex
    obtain ⟨name, F⟩ := a
    have hlkF : (lookupX F x).isSome := hlkall (name, F) (List.mem_cons_self _ _)
    obtain ⟨yi, hlk⟩ := Option.isSome_iff_exists.mp hlkF
    have hrest : ∀ p ∈ rest, (lookupX p.2 x).isSome :=
      fun p hp => hlkall p (List.mem_cons_of_mem _ hp)
    have hdev : devAt x y F = |y - yi| := devAt_eq x y F yi hlk
    cases heligF : eligAt x y F with
    | true =>
      have htmp : eligAt x y F = true := heligF
      unfold eligAt at htmp
      rw [hdev] at htmp
      cases htau : tauOf F with
      | none => rw [htau] at htmp; simp at htmp
      | some t =>
        rw [htau] at htmp
        have heligt : eligible t |y - yi| := of_decide_eq_true htmp
        have hstep : classifyAux x y ((name, F) :: rest) (none, bf, bd) =
            classifyAux x y rest (some |y - yi|, some name, some t) := by
          simp only [classifyAux, hlk, htau]
          simp [heligt]
        rcases classifyAux_max_spec x y rest (|y - yi|) name (some t) hrest with
          ⟨heq, hall⟩ | ⟨l₁, p, l₂, hsplit, helig, heq, hm, h1, h2⟩
        · refine ⟨[], (name, F), rest, rfl, heligF, ?_, by simp, ?_⟩
          · rw [hstep, heq, htau]
          · intro q hq he
            exact le_of_le_of_eq (hall q hq he) hdev.symm
        · refine ⟨(name, F) :: l₁, p, l₂, by rw [hsplit, List.cons_append], helig,
            by rw [hstep]; exact heq, ?_, h2⟩
          intro q hq he
          rcases List.mem_cons.mp hq with rfl | hq'
          · exact lt_of_le_of_lt (le_of_eq hdev) hm
          · exact h1 q hq' he
    | false =>
      have hex' : ∃ p ∈ rest, eligAt x y p.2 = true := by
        obtain ⟨p, hp, he⟩ := hex
        rcases List.mem_cons.mp hp with rfl | hp'
        · have he' : eligAt x y F = true := he
          rw [heligF] at he'
          exact absurd he' (by simp)
        · exact ⟨p, hp', he⟩
      have haccf : (match tauOf F with
          | none => false
          | some t => decide (eligible t |y - yi|)) = false := by
        have h0 : eligAt x y F = false := heligF
        unfold eligAt at h0
        rw [hdev] at h0
        exact h0
      have hstep : classifyAux x y ((name, F) :: rest) (none, bf, bd) =
          classifyAux x y rest (none, bf, bd) := by
        simp only [classifyAux, hlk]
        rw [haccf]
        simp
      obtain ⟨l₁, p, l₂, hsplit, helig, heq, h1, h2⟩ := ih bf bd hrest hex'
      refine ⟨(name, F) :: l₁, p, l₂, by rw [hsplit, List.cons_append], helig,
        by rw [hstep]; exact heq, ?_, h2⟩
      intro q hq he
      rcases List.mem_cons.mp hq with rfl | hq'
      · have he' : eligAt x y F = true := he
        rw [heligF] at he'
        exact absurd he' (by simp)
      · exact h1 q hq' he

/-- C5: for a test point with at least one eligible profile (and an exact
x match in every profile, so no lookup error), the classifier assigns the
point to the eligible profile with the LARGEST test deviation; among
profiles tying on that maximum it assigns the first-encountered one in
enumeration order (earlier eligible profiles have strictly smaller test
deviation, later ones at most equal). -/
theorem C5_assigns_first_max_eligible (x y : ℚ) (ps : List (String × MappedFrame))
    (hlk : ∀ p ∈ ps, (lookupX p.2 x).isSome)
    (hex : ∃ p ∈ ps, eligAt x y p.2 = true) :
    ∃ l₁ p l₂, ps = l₁ ++ p :: l₂ ∧ eligAt x y p.2 = true ∧
      classifyPoint x y ps = .ok (some p.1, tauOf p.2) ∧
      (∀ q ∈ l₁, eligAt x y q.2 = true → devAt x y q.2 < devAt x y p.2) ∧
      (∀ q ∈ l₂, eligAt x y q.2 = true → devAt x y q.2 ≤ devAt x y p.2) :=
  classifyAux_none_spec x y ps none none hlk hex

/-- C5 (witness): two identical eligible profiles tying on the maximal
test deviation — the classifier assigns the first one. -/
theorem C5_assigns_first_max_eligible_witness :
    ∃ l₁ p l₂,
      ([("a", (⟨[1], [1], [0], [1]⟩ : MappedFrame)),
        ("b", (⟨[1], [1], [0], [1]⟩ : MappedFrame))]) = l₁ ++ p :: l₂ ∧
      eligAt 1 1 p.2 = true ∧
      classifyPoint 1 1 [("a", (⟨[1], [1], [0], [1]⟩ : MappedFrame)),
        ("b", (⟨[1], [1], [0], [1]⟩ : MappedFrame))] = .ok (some p.1, tauOf p.2) ∧
      (∀ q ∈ l₁, eligAt 1 1 q.2 = true → devAt 1 1 q.2 < devAt 1 1 p.2) ∧
      (∀ q ∈ l₂, eligAt 1 1 q.2 = true → devAt 1 1 q.2 ≤ devAt 1 1 p.2) :=
  C5_assigns_first_max_eligible 1 1
    [("a", (⟨[1], [1], [0], [1]⟩ : MappedFrame)),
     ("b", (⟨[1], [1], [0], [1]⟩ : MappedFrame))]
    (by with_unfolding_all decide) (by with_unfolding_all decide)

theorem classifyAux_result_origin (x y : ℚ) :
    ∀ (ps : List (String × MappedFrame)) (ex : Option ℚ) (bf : Option String)
      (bd : Option ℚ) (res : Option String × Option ℚ),
      classifyAux x y ps (ex, bf, bd) = .ok res →
      res = (bf, bd) ∨ ∃ f F, (f, F) ∈ ps ∧ res = (some f, tauOf F) := by
  intro ps
  induction ps with
  | nil =>
    intro ex bf bd res h
    left
    have hr : (bf, bd) = res := by injection h
    exact hr.symm
  | cons a rest ih =>
    intro ex bf bd res h
    obtain ⟨name, F⟩ := a
    cases hlk : lookupX F x with
    | none => simp [classifyAux, hlk] at h
    | some yi =>
      simp only [classifyAux, hlk] at h
      split at h
      · split at h
        · rcases ih _ _ _ _ h with heq | ⟨f, Fq, hmem, hres⟩
          · right; exact ⟨name, F, List.mem_cons_self _ _, heq⟩
          · right; exact ⟨f, Fq, List.mem_cons_of_mem _ hmem, hres⟩
        · rcases ih _ _ _ _ h with heq | ⟨f, Fq, hmem, hres⟩
          · left; exact heq
          · right; exact ⟨f, Fq, List.mem_cons_of_mem _ hmem, hres⟩
      · rcases ih _ _ _ _ h with heq | ⟨f, Fq, hmem, hres⟩
        · left; exact heq
        · right; exact ⟨f, Fq, List.mem_cons_of_mem _ hmem, hres⟩

/-- C8: whenever the classifier assigns a test point, the `Deviation`
recorded in the output is the matched profile's training deviation (the
maximum of its `y_diff` column); for an unassigned point the recorded
deviation is the `NaN` sentinel. -/
theorem C8_deviation_is_training_max (x y : ℚ) (ps : List (String × MappedFrame))
    (res : Option String × Option ℚ) (h : classifyPoint x y ps = .ok res) :
    (res.1 = none → res.2 = none) ∧
    (∀ f, res.1 = some f → ∃ F, (f, F) ∈ ps ∧ res.2 = tauOf F) := by
  rcases classifyAux_result_origin x y ps none none none res h with heq | ⟨f, F, hmem, hres⟩
  · rw [heq]
    exact ⟨fun _ => rfl, fun f hf => by simp at hf⟩
  · rw [hres]
    refine ⟨fun hc => by simp at hc, fun g hg => ?_⟩
    obtain rfl : f = g := Option.some.inj hg
    exact ⟨F, hmem, rfl⟩

theorem insertOrReplace_lookup_self :
    ∀ (m : List (String × MappedFrame)) (k : String) (v : MappedFrame),
      lookupName (insertOrReplace m k v) k = some v := by
  intro m
  induction m with
  | nil => intro k v; simp [insertOrReplace, lookupName]
  | cons a rest ih =>
    intro k v
    obtain ⟨k0, v0⟩ := a
    by_cases hk : k0 = k
    · simp [insertOrReplace, lookupName, hk]
    · simp only [insertOrReplace, lookupName, if_neg hk]
      exact ih k v

theorem insertOrReplace_lookup_ne :
    ∀ (m : List (String × MappedFrame)) (k : String) (v : MappedFrame) (k' : String),
      k ≠ k' → lookupName (insertOrReplace m k v) k' = lookupName m k' := by
  intro m
  induction m with
  | nil => intro k v k' hne; simp [insertOrReplace, lookupName, hne]
  | cons a rest ih =>
    intro k v k' hne
    obtain ⟨k0, v0⟩ := a
    by_cases hk : k0 = k
    · subst hk
      simp [insertOrReplace, lookupName, hne]
    · simp only [insertOrReplace, lookupName, if_neg hk]
      by_cases hk' : k0 = k'
      · simp [hk']
      · simp only [if_neg hk']
        exact ih k v k' hne

theorem insertOrReplace_keys :
    ∀ (m : List (String × MappedFrame)) (k : String) (v : MappedFrame),
      (insertOrReplace m k v).map Prod.fst =
        if k ∈ m.map Prod.fst then m.map Prod.fst else m.map Prod.fst ++ [k] := by
  intro m
  induction m with
  | nil => intro k v; simp [insertOrReplace]
  | cons a rest ih =>
    intro k v
    obtain ⟨k0, v0⟩ := a
    by_cases hk : k0 = k
    · subst hk
      simp [insertOrReplace]
    · have hk' : ¬ k = k0 := fun hh => hk hh.symm
      simp only [insertOrReplace, if_neg hk, List.map_cons, ih k v]
      by_cases hmem : k ∈ rest.map Prod.fst
      · simp [hmem, hk']
      · simp [hmem, hk']

theorem createMappedAux_append (T I : RawDF) :
    ∀ (l₁ l₂ : List (String × Option String)) (acc : List (String × MappedFrame)),
      createMappedAux T I (l₁ ++ l₂) acc =
        match createMappedAux T I l₁ acc with
        | .error e => .error e
        | .ok a => createMappedAux T I l₂ a := by
  intro l₁
  induction l₁ with
  | nil => intro l₂ acc; simp [createMappedAux]
  | cons a rest ih =>
    intro l₂ acc
    obtain ⟨tc, fOpt⟩ := a
    cases fOpt with
    | none => simp only [List.cons_append, createMappedAux]; exact ih l₂ acc
    | some f =>
      by_cases hf : f ∈ colNames I
      · cases hb : buildFrame T I tc f with
        | error e => simp [createMappedAux, hf, hb]
        | ok fr =>
          simp only [List.cons_append, createMappedAux, if_pos hf, hb]
          exact ih l₂ (insertOrReplace acc f fr)
      · simp only [List.cons_append, createMappedAux, if_neg hf]
        exact ih l₂ acc

theorem createMappedAux_lookup_of_no_match (T I : RawDF) (f : String) :
    ∀ (l : List (String × Option String)) (acc res : List (String × MappedFrame)),
      (∀ r ∈ l, r.2 ≠ some f) →
      createMappedAux T I l acc = .ok res →
      lookupName res f = lookupName acc f := by
  intro l
  induction l with
  | nil =>
    intro acc res hno h
    have hr : acc = res := by injection h
    rw [hr]
  | cons a rest ih =>
    intro acc res hno h
    obtain ⟨tc, gOpt⟩ := a
    have hrest : ∀ r ∈ rest, r.2 ≠ some f := fun r hr => hno r (List.mem_cons_of_mem _ hr)
    cases gOpt with
    | none =>
      simp only [createMappedAux] at h
      exact ih acc res hrest h
    | some g =>
      have hg : g ≠ f := by
        intro hgf
        exact hno (tc, some g) (List.mem_cons_self _ _) (by rw [hgf])
      by_cases hfI : g ∈ colNames I
      · cases hb : buildFrame T I tc g with
        | error e => simp [createMappedAux, hfI, hb] at h
        | ok fr =>
          simp only [createMappedAux, if_pos hfI, hb] at h
          have := ih (insertOrReplace acc g fr) res hrest h
          rw [this, insertOrReplace_lookup_ne acc g fr f hg]
      · simp only [createMappedAux, if_neg hfI] at h
        exact ih acc res hrest h

theorem createMappedAux_keys_nodup (T I : RawDF) :
    ∀ (l : List (String × Option String)) (acc res : List (String × MappedFrame)),
      createMappedAux T I l acc = .ok res →
      (acc.map Prod.fst).Nodup → (res.map Prod.fst).Nodup := by
  intro l
  induction l with
  | nil =>
    intro acc res h hnd
    have hr : acc = res := by injection h
    rw [← hr]
    exact hnd
  | cons a rest ih =>
    intro acc res h hnd
    obtain ⟨tc, gOpt⟩ := a
    cases gOpt with
    | none =>
      simp only [createMappedAux] at h
      exact ih acc res h hnd
    | some g =>
      by_cases hfI : g ∈ colNames I
      · cases hb : buildFrame T I tc g with
        | error e => simp [createMappedAux, hfI, hb] at h
        | ok fr =>
          simp only [createMappedAux, if_pos hfI, hb] at h
          refine ih (insertOrReplace acc g fr) res h ?_
          rw [insertOrReplace_keys]
          by_cases hmem : g ∈ acc.map Prod.fst
          · simpa [hmem] using hnd
          · simp only [hmem, if_false]
            refine List.Nodup.append hnd (by simp) ?_
            intro a ha hb2
            simp only [List.mem_singleton] at hb2
            exact hmem (hb2 ▸ ha)
      · simp only [createMappedAux, if_neg hfI] at h
        exact ih acc res h hnd

theorem selectBest_eq_pickMin (tv : List ℚ) :
    ∀ (l : List (String × List ℚ)) (acc : Option (String × ℚ)),
      (∀ p ∈ l, p.2.length = tv.length) →
      selectBest tv l acc = .ok (pickMin tv l acc) := by
  intro l
  induction l with
  | nil => intro acc h; rfl
  | cons a rest ih =>
    intro acc h
    obtain ⟨name, vs⟩ := a
    have hlen : vs.length = tv.length := h (name, vs) (List.mem_cons_self _ _)
    have hnp : npSub tv vs = .ok (List.zipWith (fun u v => u - v) tv vs) := by
      unfold npSub
      rw [if_pos hlen.symm]
    have hrest : ∀ p ∈ rest, p.2.length = tv.length :=
      fun p hp => h p (List.mem_cons_of_mem _ hp)
    simp only [selectBest, pickMin, hnp, sse]
    cases acc with
    | none => exact ih _ hrest
    | some b =>
      obtain ⟨bn, bd⟩ := b
      by_cases hlt : sqSum (List.zipWith (fun u v => u - v) tv vs) < bd
      · simp only [if_pos hlt]
        exact ih _ hrest
      · simp only [if_neg hlt]
        exact ih _ hrest

theorem pickMin_acc_spec (tv : List ℚ) :
    ∀ (l : List (String × List ℚ)) (b : String × ℚ),
      (pickMin tv l (some b) = some b ∧ ∀ q ∈ l, b.2 ≤ sse tv q.2) ∨
      (∃ l₁ p l₂, l = l₁ ++ p :: l₂ ∧
        pickMin tv l (some b) = some (p.1, sse tv p.2) ∧
        sse tv p.2 < b.2 ∧
        (∀ q ∈ l₁, sse tv p.2 < sse tv q.2) ∧
        (∀ q ∈ l₂, sse tv p.2 ≤ sse tv q.2)) := by
  intro l
  induction l with
  | nil => intro b; left; exact ⟨rfl, by simp⟩
  | cons a rest ih =>
    intro b
    obtain ⟨bn, bd⟩ := b
    obtain ⟨n, vs⟩ := a
    by_cases hlt : sse tv vs < bd
    · have hstep : pickMin tv ((n, vs) :: rest) (some (bn, bd)) =
          pickMin tv rest (some (n, sse tv vs)) := by
        simp [pickMin, hlt]
      rcases ih (n, sse tv vs) with ⟨heq, hall⟩ | ⟨l₁, p, l₂, hsplit, heq, hlt2, h1, h2⟩
      · right
        refine ⟨[], (n, vs), rest, rfl, ?_, hlt, by simp, hall⟩
        rw [hstep, heq]
      · right
        refine ⟨(n, vs) :: l₁, p, l₂, by rw [hsplit, List.cons_append], ?_, lt_trans hlt2 hlt, ?_, h2⟩
        · rw [hstep, heq]
        · intro q hq
          rcases List.mem_cons.mp hq with rfl | hq'
          · exact hlt2
          · exact h1 q hq'
    · have hstep : pickMin tv ((n, vs) :: rest) (some (bn, bd)) =
          pickMin tv rest (some (bn, bd)) := by
        simp [pickMin, hlt]
      rcases ih (bn, bd) with ⟨heq, hall⟩ | ⟨l₁, p, l₂, hsplit, heq, hlt2, h1, h2⟩
      · left
        refine ⟨by rw [hstep, heq], ?_⟩
        intro q hq
        rcases List.mem_cons.mp hq with rfl | hq'
        · exact not_lt.mp hlt
        · exact hall q hq'
      · right
        refine ⟨(n, vs) :: l₁, p, l₂, by rw [hsplit, List.cons_append], ?_, hlt2, ?_, h2⟩
        · rw [hstep, heq]
        · intro q hq
          rcases List.mem_cons.mp hq with rfl | hq'
          · exact lt_of_lt_of_le hlt2 (not_lt.mp hlt)
          · exact h1 q hq'

/-- C4: for a non-empty candidate set whose series all match the training
series' length, the inner selection loop returns the candidate minimizing
the sum of squared differences, and every earlier candidate has a strictly
larger SSE — i.e. ties are broken in favour of the first-encountered
candidate in input column order. -/
theorem C4_selects_first_min_sse (tv : List ℚ) (ideals : List (String × List ℚ))
    (hne : ideals ≠ [])
    (hlen : ∀ p ∈ ideals, p.2.length = tv.length) :
    ∃ l₁ p l₂, ideals = l₁ ++ p :: l₂ ∧
      selectBest tv ideals none = .ok (some (p.1, sse tv p.2)) ∧
      (∀ q ∈ ideals, sse tv p.2 ≤ sse tv q.2) ∧
      (∀ q ∈ l₁, sse tv p.2 < sse tv q.2) := by
  obtain ⟨a, rest, rfl⟩ := List.exists_cons_of_ne_nil hne
  obtain ⟨n, vs⟩ := a
  have hsel := selectBest_eq_pickMin tv ((n, vs) :: rest) none hlen
  have hstep : pickMin tv ((n, vs) :: rest) none =
      pickMin tv rest (some (n, sse tv vs)) := by
    simp [pickMin]
  rcases pickMin_acc_spec tv rest (n, sse tv vs) with ⟨heq, hall⟩ |
    ⟨l₁, p, l₂, hsplit, heq, hlt2, h1, h2⟩
  · refine ⟨[], (n, vs), rest, rfl, ?_, ?_, by simp⟩
    · rw [hsel, hstep, heq]
    · intro q hq
      rcases List.mem_cons.mp hq with rfl | hq'
      · exact le_refl _
      · exact hall q hq'
  · refine ⟨(n, vs) :: l₁, p, l₂, by rw [hsplit, List.cons_append], ?_, ?_, ?_⟩
    · rw [hsel, hstep, heq]
    · intro q hq
      rcases List.mem_cons.mp hq with rfl | hq'
      · exact le_of_lt hlt2
      · rw [hsplit] at hq'
        rcases List.mem_append.mp hq' with hq1 | hq2
        · exact le_of_lt (h1 q hq1)
        · rcases List.mem_cons.mp hq2 with rfl | hq3
          · exact le_refl _
          · exact h2 q hq3
    · intro q hq
      rcases List.mem_cons.mp hq with rfl | hq'
      · exact hlt2
      · exact h1 q hq'

/-- C4 (witness): two candidates with identical (tied) SSE — the selector
keeps the first-encountered one. -/
theorem C4_selects_first_min_sse_witness :
    ∃ l₁ p l₂,
      ([("a", [(0 : ℚ), 0]), ("b", [(0 : ℚ), 0])] : List (String × List ℚ)) =
        l₁ ++ p :: l₂ ∧
      selectBest [(0 : ℚ), 0] [("a", [(0 : ℚ), 0]), ("b", [(0 : ℚ), 0])] none =
        .ok (some (p.1, sse [(0 : ℚ), 0] p.2)) ∧
      (∀ q ∈ ([("a", [(0 : ℚ), 0]), ("b", [(0 : ℚ), 0])] : List (String × List ℚ)),
        sse [(0 : ℚ), 0] p.2 ≤ sse [(0 : ℚ), 0] q.2) ∧
      (∀ q ∈ l₁, sse [(0 : ℚ), 0] p.2 < sse [(0 : ℚ), 0] q.2) :=
  C4_selects_first_min_sse [(0 : ℚ), 0] [("a", [(0 : ℚ), 0]), ("b", [(0 : ℚ), 0])]
    (by decide) (by decide)

/-- C9: `create_mapped_dataframes` keys its result dictionary by ideal
function name: looking up an ideal function returns the dataframe built
from the LAST mapping row naming it (later rows overwrite earlier ones),
the keys are pairwise distinct, and with two training series mapped to the
same ideal function the dictionary has fewer entries than mapping rows. -/
theorem C9_last_mapping_wins :
    (∀ (T I : RawDF) (ms₁ ms₂ : List (String × Option String)) (tc f : String)
        (res : List (String × MappedFrame)),
      createMapped (ms₁ ++ (tc, some f) :: ms₂) I T = .ok res →
      f ∈ colNames I →
      (∀ r ∈ ms₂, r.2 ≠ some f) →
      ∃ fr, buildFrame T I tc f = .ok fr ∧ lookupName res f = some fr) ∧
    (∀ (ms : List (String × Option String)) (I T : RawDF)
        (res : List (String × MappedFrame)),
      createMapped ms I T = .ok res → (res.map Prod.fst).Nodup) ∧
    (∃ res, createMapped [("y1", some "i1"), ("y2", some "i1")]
        [("x", [(1 : ℚ)]), ("i1", [2])] [("x", [(1 : ℚ)]), ("y1", [3]), ("y2", [4])] =
          .ok res ∧
      res.length < 2) := by
  refine ⟨?_, ?_, ?_⟩
  · intro T I ms₁ ms₂ tc f res hok hfI hno
    unfold createMapped at hok
    rw [createMappedAux_append] at hok
    cases h1 : createMappedAux T I ms₁ [] with
    | error e => simp [h1] at hok
    | ok acc₁ =>
      simp only [h1] at hok
      cases hb : buildFrame T I tc f with
      | error e => simp [createMappedAux, hfI, hb] at hok
      | ok fr =>
        simp only [createMappedAux, if_pos hfI, hb] at hok
        have hlast := createMappedAux_lookup_of_no_match T I f ms₂ _ _ hno hok
        rw [insertOrReplace_lookup_self] at hlast
        exact ⟨fr, rfl, hlast⟩
  · intro ms I T res h
    exact createMappedAux_keys_nodup T I ms [] res h (by simp)
  · refine ⟨[("i1", (⟨[1], [2], [4], [-2]⟩ : MappedFrame))], ?_, ?_⟩
    · with_unfolding_all decide
    · decide

/-- C9 (witness): with mapping rows `y1 → i1` and `y2 → i1`, the surviving
profile for `i1` is the one built from the later row `y2`. -/
theorem C9_last_mapping_wins_witness :
    ∃ fr, buildFrame [("x", [(1 : ℚ)]), ("y1", [3]), ("y2", [4])]
        [("x", [(1 : ℚ)]), ("i1", [2])] "y2" "i1" = .ok fr ∧
      lookupName [("i1", (⟨[1], [2], [4], [-2]⟩ : MappedFrame))] "i1" = some fr :=
  C9_last_mapping_wins.1 [("x", [(1 : ℚ)]), ("y1", [3]), ("y2", [4])]
    [("x", [(1 : ℚ)]), ("i1", [2])] [("y1", some "i1")] [] "y2" "i1"
    [("i1", (⟨[1], [2], [4], [-2]⟩ : MappedFrame))]
    (by with_unfolding_all decide) (by decide) (by simp)

/-- C8 (witness): an assigned point whose test deviation is `0` but whose
recorded deviation is the training maximum `1`. -/
theorem C8_deviation_is_training_max_witness :
    (((some "i1", some 1) : Option String × Option ℚ).1 = none →
      ((some "i1", some 1) : Option String × Option ℚ).2 = none) ∧
    (∀ f, ((some "i1", some 1) : Option String × Option ℚ).1 = some f →
      ∃ F, (f, F) ∈ [("i1", (⟨[1], [1], [0], [1]⟩ : MappedFrame))] ∧
        ((some "i1", some 1) : Option String × Option ℚ).2 = tauOf F) :=
  C8_deviation_is_training_max 1 1 [("i1", (⟨[1], [1], [0], [1]⟩ : MappedFrame))]
    ((some "i1", some 1)) (by with_unfolding_all decide)

end IdealFn
